import Mathlib

/-!
Shallow embedding of the endpoint routing table of the adaptive_rest server
(src/server/endpoint.rs and src/server/mod.rs), together with proofs of the
specified properties.  Response bodies (Bytes in the source) are modelled as
strings; the BTreeMap of children is modelled as a sorted association list;
the HashMap from methods to trees is modelled as a duplicate-free association
list.  Mutation in the source becomes explicit state passing: operations
return the updated node or store.
-/

/-- HTTP methods accepted by the routing table (the fixed set GET, POST, PUT,
PATCH, DELETE from the command grammar). -/
inductive Method : Type where
  | GET
  | POST
  | PUT
  | PATCH
  | DELETE
deriving DecidableEq, Repr

/-- Embeds PathNode from src/server/endpoint.rs: an optional response body and
a BTreeMap from path segment to child node, the map modelled as an association
list kept sorted by key. -/
inductive PathNode : Type where
  | mk (body : Option String) (children : List (String × PathNode))

/-- The body field of a PathNode. -/
def PathNode.body : PathNode → Option String
  | .mk b _ => b

/-- The children field of a PathNode. -/
def PathNode.children : PathNode → List (String × PathNode)
  | .mk _ cs => cs

/-- Embeds PathNode::is_empty: no body and no children. -/
def PathNode.is_empty (n : PathNode) : Bool :=
  n.body.isNone && n.children.isEmpty

/-- Association-list lookup; embeds BTreeMap::get and HashMap::get. -/
def alFind {κ α : Type} [DecidableEq κ] : List (κ × α) → κ → Option α
  | [], _ => none
  | (k, v) :: rest, s => if k = s then some v else alFind rest s

/-- Association-list update or append; embeds HashMap insertion (the key is
replaced in place when present, appended otherwise; no order maintained). -/
def alInsert {κ α : Type} [DecidableEq κ] : List (κ × α) → κ → α → List (κ × α)
  | [], s, v => [(s, v)]
  | (k, w) :: rest, s, v =>
    if k = s then (k, v) :: rest else (k, w) :: alInsert rest s v

/-- Association-list removal; embeds BTreeMap::remove and HashMap::remove. -/
def alRemove {κ α : Type} [DecidableEq κ] : List (κ × α) → κ → List (κ × α)
  | [], _ => []
  | (k, w) :: rest, s => if k = s then rest else (k, w) :: alRemove rest s

/-- Lexicographic strict order on character lists; the order BTreeMap uses on
string keys (code-point order, which agrees with the byte order of UTF-8). -/
def lexLt : List Char → List Char → Bool
  | [], [] => false
  | [], _ :: _ => true
  | _ :: _, [] => false
  | a :: as, b :: bs =>
    if a < b then true else if b < a then false else lexLt as bs

/-- Strict order on strings via their character lists. -/
def strLt (a b : String) : Bool :=
  lexLt a.toList b.toList

/-- Order-preserving insert-or-replace for the sorted association list that
models BTreeMap over string keys; embeds BTreeMap insertion via the entry API. -/
def sortedInsert {α : Type} : List (String × α) → String → α → List (String × α)
  | [], s, v => [(s, v)]
  | (k, w) :: rest, s, v =>
    if strLt s k then (s, v) :: (k, w) :: rest
    else if s = k then (s, v) :: rest
    else (k, w) :: sortedInsert rest s v

/-- Splitting a character list on the slash character; embeds the iterator
str::split with separator the slash, producing the list of pieces. -/
def splitSlashAux : List Char → List Char → List String
  | [], acc => [String.mk acc.reverse]
  | c :: rest, acc =>
    if c = '/' then String.mk acc.reverse :: splitSlashAux rest []
    else splitSlashAux rest (c :: acc)

/-- Embeds str::trim_matches with the slash pattern: removes leading and
trailing slash characters. -/
def trimSlashes (s : List Char) : List Char :=
  ((s.dropWhile (fun c => c = '/')).reverse.dropWhile (fun c => c = '/')).reverse

/-- The path normalization applied identically by walk, walk_or_create and
EndpointStore::delete: trim leading and trailing slashes, split on the slash,
and discard empty segments. -/
def normPath (path : String) : List String :=
  (splitSlashAux (trimSlashes path.toList) []).filter (fun s => !s.isEmpty)

/-- Embeds the loop of PathNode::walk on an already-normalized segment list:
follow existing children only, failing as soon as a segment is absent. -/
def PathNode.walkSegs : PathNode → List String → Option PathNode
  | n, [] => some n
  | n, s :: rest =>
    match alFind n.children s with
    | some c => c.walkSegs rest
    | none => none

/-- Embeds PathNode::walk: normalize the path, then follow existing children. -/
def PathNode.walk (n : PathNode) (path : String) : Option PathNode :=
  n.walkSegs (normPath path)

/-- The body stored at an exact segment list, if any. -/
def PathNode.bodyAt (n : PathNode) (segs : List String) : Option String :=
  match n.walkSegs segs with
  | some t => t.body
  | none => none

/-- Embeds PathNode::walk_or_create fused with the body update done by
EndpointStore::add (a mutable reference cannot be returned in a pure setting):
walks the segment list creating missing nodes, records whether the target node
already held a body, and replaces the body unconditionally. -/
def PathNode.insertAt : PathNode → List String → String → Bool × PathNode
  | n, [], b => (n.body.isSome, .mk (some b) n.children)
  | n, s :: rest, b =>
    let child := (alFind n.children s).getD (.mk none [])
    let r := child.insertAt rest b
    (r.1, .mk n.body (sortedInsert n.children s r.2))

/-- Embeds PathNode::delete_recursive: recursively delete at the segment list
and prune children that become empty.  Returns ((removed_body, should_prune_self),
updated_node); the caller discards the node when the flag is set. -/
def PathNode.delete_recursive : PathNode → List String → (Option String × Bool) × PathNode
  | n, [] =>
    let taken : PathNode := .mk none n.children
    ((n.body, taken.is_empty), taken)
  | n, s :: rest =>
    match alFind n.children s with
    | some child =>
      let r := child.delete_recursive rest
      let updated : PathNode :=
        .mk n.body (if r.1.2 then alRemove n.children s else sortedInsert n.children s r.2)
      ((r.1.1, updated.is_empty), updated)
    | none => ((none, false), n)

mutual
/-- Embeds PathNode::collect_entries: emit the body at this node under the
accumulated path (the empty accumulator denotes the root and prints as a single
slash), then visit the children in map order. -/
def PathNode.collect_entries : PathNode → String → List (String × String)
  | .mk b cs, path =>
    (match b with
     | some body => [(if path.isEmpty then "/" else path, body)]
     | none => []) ++ collectChildren cs path

/-- The children loop of PathNode::collect_entries. -/
def collectChildren : List (String × PathNode) → String → List (String × String)
  | [], _ => []
  | (seg, child) :: rest, path =>
    child.collect_entries (path ++ "/" ++ seg) ++ collectChildren rest path
end

/-- Embeds EndpointStore from src/server/endpoint.rs: a HashMap from method to
path tree, modelled as a duplicate-free association list. -/
structure EndpointStore : Type where
  entries : List (Method × PathNode)

/-- Embeds EndpointStore::add: fetch or lazily create the tree of the method,
walk-or-create to the target node, replace its body, and report whether the
node already held one. -/
def EndpointStore.add (s : EndpointStore) (m : Method) (path : String) (b : String) :
    Bool × EndpointStore :=
  let root := (alFind s.entries m).getD (.mk none [])
  let r := root.insertAt (normPath path) b
  (r.1, ⟨alInsert s.entries m r.2⟩)

/-- Embeds EndpointStore::get: look up the tree of the method, walk the exact
path, and return the body at the reached node. -/
def EndpointStore.get (s : EndpointStore) (m : Method) (path : String) : Option String :=
  match alFind s.entries m with
  | some root =>
    match root.walk path with
    | some n => n.body
    | none => none
  | none => none

/-- Embeds EndpointStore::delete: normalize the path, recursively delete in the
tree of the method, and prune the method entry when its tree becomes empty. -/
def EndpointStore.delete (s : EndpointStore) (m : Method) (path : String) :
    Option String × EndpointStore :=
  let segments := normPath path
  match alFind s.entries m with
  | some root =>
    let r := root.delete_recursive segments
    if r.1.2 then (r.1.1, ⟨alRemove s.entries m⟩)
    else (r.1.1, ⟨alInsert s.entries m r.2⟩)
  | none => (none, s)

/-- Embeds EndpointStore::entries_by: the collect_entries output of the tree of
the method, empty when the method is absent. -/
def EndpointStore.entries_by (s : EndpointStore) (m : Method) : List (String × String) :=
  match alFind s.entries m with
  | some root => root.collect_entries ""
  | none => []

/-- Embeds the public EndpointStore::entries enumeration (renamed, since the
field already carries the source name): the methods present, optionally
filtered, each with its entries_by output. -/
def EndpointStore.entriesAll (s : EndpointStore) (by_method : Option Method) :
    List (Method × List (String × String)) :=
  ((s.entries.map Prod.fst).filter (fun k =>
    match by_method with
    | some m => k == m
    | none => true)).map (fun m => (m, s.entries_by m))

/-- Emptiness of the whole table: no method has an entry. -/
def EndpointStore.is_empty (s : EndpointStore) : Bool :=
  s.entries.isEmpty

/-- Whether a key is strictly below every key of an association list. -/
def keyLtAll {α : Type} (k : String) : List (String × α) → Bool
  | [] => true
  | (k2, _) :: rest => strLt k k2 && keyLtAll k rest

/-- Strict sortedness of the keys of a children list: the representation
invariant of BTreeMap (each key is below all later keys). -/
def sortedKeys {α : Type} : List (String × α) → Bool
  | [] => true
  | (k, _) :: rest => keyLtAll k rest && sortedKeys rest

mutual
/-- Well-formedness of a node: its children list is sorted, and every strict
descendant is non-empty (the pruning invariant) and itself well-formed. -/
def nodeWf : PathNode → Bool
  | .mk _ cs => sortedKeys cs && childrenWf cs

/-- Well-formedness of a children list: each child is non-empty and well-formed. -/
def childrenWf : List (String × PathNode) → Bool
  | [] => true
  | (_, c) :: rest => !c.is_empty && nodeWf c && childrenWf rest
end

mutual
/-- Whether a tree stores at least one body somewhere. -/
def PathNode.hasBody : PathNode → Bool
  | .mk b cs => b.isSome || childrenHaveBody cs

/-- Whether some child subtree stores a body. -/
def childrenHaveBody : List (String × PathNode) → Bool
  | [] => false
  | (_, c) :: rest => c.hasBody || childrenHaveBody rest
end

/-- Well-formedness of the method table: method keys are duplicate-free and
every tree present is well-formed and non-empty (the pruning invariant lifted
to the table). -/
def storeEntriesWf : List (Method × PathNode) → Bool
  | [] => true
  | (m, root) :: rest =>
    nodeWf root && !root.is_empty && rest.all (fun e => !(e.1 == m)) && storeEntriesWf rest

/-- Well-formedness of an EndpointStore. -/
def storeWf (s : EndpointStore) : Bool :=
  storeEntriesWf s.entries

mutual
/-- Specification-level depth-first enumeration of the stored bodies, keyed by
exact segment list: the root body first, then the children in map order. -/
def collectPairs : PathNode → List (List String × String)
  | .mk b cs =>
    (match b with
     | some body => [([], body)]
     | none => []) ++ collectPairsChildren cs

/-- The children part of collectPairs. -/
def collectPairsChildren : List (String × PathNode) → List (List String × String)
  | [] => []
  | (s, c) :: rest =>
    (collectPairs c).map (fun e => (s :: e.1, e.2)) ++ collectPairsChildren rest
end

/-- Path reconstruction of collect_entries: extend an accumulated path with one
slash-separated segment per step. -/
def renderAcc (acc : String) (segs : List String) : String :=
  segs.foldl (fun a s => a ++ "/" ++ s) acc

/-- The full path printed for a registered segment list: a single slash for the
root, otherwise the slash-joined segments. -/
def renderFull (segs : List String) : String :=
  if segs.isEmpty then "/" else renderAcc "" segs

/-- Strict lexicographic order on segment lists, a shorter list that the longer
one extends coming first: the order in which a depth-first traversal with
sorted children visits the stored bodies. -/
def segLex (a b : List String) : Prop :=
  List.Lex (fun x y => strLt x y = true) a b

/-- An HTTP response as the dispatcher produces it: a status code and a body. -/
structure HttpResp : Type where
  status : Nat
  body : String
deriving DecidableEq, Repr

/-- Result of acquiring the reader/writer lock around the shared store: either
the guarded value or a poisoned lock. -/
inductive LockResult (α : Type) : Type where
  | ok (value : α)
  | poisoned

/-- Embeds InternalError from src/util.rs (the IO variant carries no payload
here since IO errors never reach the routing layer). -/
inductive InternalError : Type where
  | LockFailed
  | EndpointNotFound (path : String)
  | LoggerInitError
  | ParserError
deriving DecidableEq, Repr

/-- Lower-case hexadecimal digit. -/
def hexDigit (n : Nat) : Char :=
  if n < 10 then Char.ofNat (48 + n) else Char.ofNat (87 + n)

/-- Four-digit hexadecimal rendering used by JSON unicode escapes. -/
def hex4 (n : Nat) : String :=
  String.mk [hexDigit (n / 4096 % 16), hexDigit (n / 256 % 16),
             hexDigit (n / 16 % 16), hexDigit (n % 16)]

/-- JSON string escaping as serde_json performs it: quote, backslash, the named
control escapes, and unicode escapes for the remaining control characters. -/
def jsonEscapeChar (c : Char) : String :=
  if c = '"' then "\\\""
  else if c = '\\' then "\\\\"
  else if c = '\x08' then "\\b"
  else if c = '\x0c' then "\\f"
  else if c = '\n' then "\\n"
  else if c = '\r' then "\\r"
  else if c = '\t' then "\\t"
  else if c.toNat < 32 then "\\u" ++ hex4 c.toNat
  else String.mk [c]

/-- A JSON string literal for the given text. -/
def jsonString (s : String) : String :=
  "\"" ++ String.join (s.toList.map jsonEscapeChar) ++ "\""

/-- The serde_json serialization of the not-found payload of catch_all: keys in
BTreeMap order, so error before path. -/
def jsonNotFound (path : String) : String :=
  "\x7b\"error\":\"not found\",\"path\":" ++ jsonString path ++ "\x7d"

/-- Embeds catch_all from src/server/mod.rs: on a poisoned read lock answer 500
with an empty body; otherwise look up (method, path) and answer 200 with the
stored body or 404 with the structured not-found payload. -/
def catch_all (lock : LockResult EndpointStore) (m : Method) (path : String) : HttpResp :=
  match lock with
  | .poisoned => ⟨500, ""⟩
  | .ok s =>
    match s.get m path with
    | some response => ⟨200, response⟩
    | none => ⟨404, jsonNotFound path⟩

/-- Embeds the routing set up by run_server: the health service is registered
for GET /api/health and matched before the default service, which is catch_all. -/
def handle_request (lock : LockResult EndpointStore) (m : Method) (path : String) : HttpResp :=
  if m = Method.GET ∧ path = "/api/health" then ⟨200, "OK"⟩
  else catch_all lock m path

/-- Embeds ServerState::delete_endpoint under a successfully acquired write
lock (a poisoned lock surfaces LockFailed before the store is touched): a
not-found delete surfaces EndpointNotFound carrying the requested path. -/
def delete_endpoint (s : EndpointStore) (m : Method) (path : String) :
    Except InternalError Unit × EndpointStore :=
  let r := s.delete m path
  match r.1 with
  | some _ => (Except.ok (), r.2)
  | none => (Except.error (InternalError.EndpointNotFound path), r.2)

theorem lexLt_irrefl (a : List Char) : lexLt a a = false := by
  induction a with
  | nil => rfl
  | cons c rest ih => simp [lexLt, ih]

theorem lexLt_trans : ∀ {a b c : List Char},
    lexLt a b = true → lexLt b c = true → lexLt a c = true := by
  intro a
  induction a with
  | nil =>
    intro b c h1 h2
    cases b with
    | nil => simp [lexLt] at h1
    | cons y ys =>
      cases c with
      | nil => simp [lexLt] at h2
      | cons z zs => simp [lexLt]
  | cons x xs ih =>
    intro b c h1 h2
    cases b with
    | nil => simp [lexLt] at h1
    | cons y ys =>
      cases c with
      | nil => simp [lexLt] at h2
      | cons z zs =>
        simp only [lexLt] at h1 h2 ⊢
        by_cases hxy : x < y
        · by_cases hyz : y < z
          · simp [lt_trans hxy hyz]
          · by_cases hzy : z < y
            · simp [hyz, hzy] at h2
            · have : y = z := le_antisymm (not_lt.mp hzy) (not_lt.mp hyz)
              subst this
              simp [hxy]
        · by_cases hyx : y < x
          · simp [hxy, hyx] at h1
          · have : x = y := le_antisymm (not_lt.mp hyx) (not_lt.mp hxy)
            subst this
            simp only [hxy, if_neg, reduceIte] at h1 ⊢
            by_cases hyz : x < z
            · simp [hyz]
            · by_cases hzy : z < x
              · simp [hyz, hzy] at h2
              · have : x = z := le_antisymm (not_lt.mp hzy) (not_lt.mp hyz)
                subst this
                simp only [lt_self_iff_false, if_false, reduceIte] at h1 h2 ⊢
                exact ih h1 h2

theorem lexLt_eq_of_not : ∀ {a b : List Char},
    lexLt a b = false → lexLt b a = false → a = b := by
  intro a
  induction a with
  | nil =>
    intro b h1 _
    cases b with
    | nil => rfl
    | cons y ys => simp [lexLt] at h1
  | cons x xs ih =>
    intro b h1 h2
    cases b with
    | nil => simp [lexLt] at h2
    | cons y ys =>
      simp only [lexLt] at h1 h2
      by_cases hxy : x < y
      · simp [hxy] at h1
      · by_cases hyx : y < x
        · simp [hxy, hyx] at h2
        · have hxyeq : x = y := le_antisymm (not_lt.mp hyx) (not_lt.mp hxy)
          subst hxyeq
          simp only [lt_self_iff_false, if_false, reduceIte] at h1 h2
          rw [ih h1 h2]

theorem lexLt_asymm {a b : List Char} (h : lexLt a b = true) : lexLt b a = false := by
  by_contra hc
  have : lexLt b a = true := by
    cases hba : lexLt b a
    · exact absurd hba hc
    · rfl
  have := lexLt_trans h this
  rw [lexLt_irrefl] at this
  exact Bool.false_ne_true this

theorem strLt_irrefl (a : String) : strLt a a = false :=
  lexLt_irrefl _

theorem strLt_trans {a b c : String} (h1 : strLt a b = true) (h2 : strLt b c = true) :
    strLt a c = true :=
  lexLt_trans h1 h2

theorem strLt_eq_of_not {a b : String} (h1 : strLt a b = false) (h2 : strLt b a = false) :
    a = b := by
  have := lexLt_eq_of_not h1 h2
  cases a
  cases b
  simp only [String.toList] at this
  exact congrArg String.mk this

theorem strLt_asymm {a b : String} (h : strLt a b = true) : strLt b a = false :=
  lexLt_asymm h

theorem strLt_ne {a b : String} (h : strLt a b = true) : a ≠ b := by
  intro hab
  subst hab
  rw [strLt_irrefl] at h
  exact Bool.false_ne_true h

theorem alFind_alInsert_self {κ α : Type} [DecidableEq κ] (l : List (κ × α)) (k : κ) (v : α) :
    alFind (alInsert l k v) k = some v := by
  induction l with
  | nil => simp [alInsert, alFind]
  | cons e rest ih =>
    obtain ⟨k2, w⟩ := e
    by_cases h : k2 = k
    · subst h
      simp [alInsert, alFind]
    · simp [alInsert, alFind, h, ih]

theorem alFind_alInsert_ne {κ α : Type} [DecidableEq κ] (l : List (κ × α)) {k t : κ} (v : α)
    (h : t ≠ k) : alFind (alInsert l k v) t = alFind l t := by
  have hkt : k ≠ t := fun e => h (Eq.symm e)
  induction l with
  | nil => simp [alInsert, alFind, hkt]
  | cons e rest ih =>
    obtain ⟨k2, w⟩ := e
    by_cases hk : k2 = k
    · subst hk
      simp [alInsert, alFind, hkt]
    · simp [alInsert, alFind, hk, ih]

theorem alFind_alRemove_ne {κ α : Type} [DecidableEq κ] (l : List (κ × α)) {k t : κ}
    (h : t ≠ k) : alFind (alRemove l k) t = alFind l t := by
  have hkt : k ≠ t := fun e => h (Eq.symm e)
  induction l with
  | nil => simp [alRemove]
  | cons e rest ih =>
    obtain ⟨k2, w⟩ := e
    by_cases hk : k2 = k
    · subst hk
      simp [alRemove, alFind, hkt]
    · simp [alRemove, alFind, hk, ih]

theorem alInsert_self_eq {κ α : Type} [DecidableEq κ] {l : List (κ × α)} {k : κ} {v : α}
    (h : alFind l k = some v) : alInsert l k v = l := by
  induction l with
  | nil => simp [alFind] at h
  | cons e rest ih =>
    obtain ⟨k2, w⟩ := e
    by_cases hk : k2 = k
    · subst hk
      simp [alFind] at h
      simp [alInsert, h]
    · simp [alFind, hk] at h
      simp [alInsert, hk, ih h]

theorem alFind_sortedInsert_self {α : Type} (cs : List (String × α)) (s : String) (v : α) :
    alFind (sortedInsert cs s v) s = some v := by
  induction cs with
  | nil => simp [sortedInsert, alFind]
  | cons e rest ih =>
    obtain ⟨k, w⟩ := e
    by_cases hlt : strLt s k = true
    · simp [sortedInsert, hlt, alFind]
    · by_cases heq : s = k
      · subst heq
        simp [sortedInsert, hlt, alFind]
      · have : k ≠ s := fun e => heq (Eq.symm e)
        simp [sortedInsert, hlt, heq, alFind, this, ih]

theorem alFind_sortedInsert_ne {α : Type} (cs : List (String × α)) {s t : String} (v : α)
    (h : t ≠ s) : alFind (sortedInsert cs s v) t = alFind cs t := by
  have hst : s ≠ t := fun e => h (Eq.symm e)
  induction cs with
  | nil => simp [sortedInsert, alFind, hst]
  | cons e rest ih =>
    obtain ⟨k, w⟩ := e
    by_cases hlt : strLt s k = true
    · simp [sortedInsert, hlt, alFind, hst]
    · by_cases hseq : s = k
      · subst hseq
        simp [sortedInsert, hlt, alFind, hst]
      · simp [sortedInsert, hlt, hseq, alFind, ih]

theorem keyLtAll_of_lt {α : Type} {s k : String} {cs : List (String × α)}
    (h : strLt s k = true) (hall : keyLtAll k cs = true) : keyLtAll s cs = true := by
  induction cs with
  | nil => rfl
  | cons e rest ih =>
    obtain ⟨k2, w⟩ := e
    simp only [keyLtAll, Bool.and_eq_true] at hall ⊢
    exact ⟨strLt_trans h hall.1, ih hall.2⟩

theorem keyLtAll_sortedInsert {α : Type} {k s : String} {cs : List (String × α)} (v : α)
    (h : strLt k s = true) (hall : keyLtAll k cs = true) :
    keyLtAll k (sortedInsert cs s v) = true := by
  induction cs with
  | nil => simp [sortedInsert, keyLtAll, h]
  | cons e rest ih =>
    obtain ⟨k2, w⟩ := e
    simp only [keyLtAll, Bool.and_eq_true] at hall
    by_cases hlt : strLt s k2 = true
    · simp [sortedInsert, hlt, keyLtAll, h, hall.1, hall.2]
    · by_cases heq : s = k2
      · subst heq
        simp [sortedInsert, hlt, keyLtAll, h, hall.2]
      · simp [sortedInsert, hlt, heq, keyLtAll, hall.1, ih hall.2]

theorem keyLtAll_alRemove {α : Type} {k s : String} {cs : List (String × α)}
    (hall : keyLtAll k cs = true) : keyLtAll k (alRemove cs s) = true := by
  induction cs with
  | nil => rfl
  | cons e rest ih =>
    obtain ⟨k2, w⟩ := e
    simp only [keyLtAll, Bool.and_eq_true] at hall
    by_cases hk : k2 = s
    · simp [alRemove, hk, hall.2]
    · simp [alRemove, hk, keyLtAll, hall.1, ih hall.2]

theorem keyLtAll_find_none {α : Type} {k : String} {cs : List (String × α)}
    (hall : keyLtAll k cs = true) : alFind cs k = none := by
  induction cs with
  | nil => rfl
  | cons e rest ih =>
    obtain ⟨k2, w⟩ := e
    simp only [keyLtAll, Bool.and_eq_true] at hall
    have : k2 ≠ k := fun e => (strLt_ne hall.1) (Eq.symm e)
    simp [alFind, this, ih hall.2]

theorem find_some_of_keyLtAll_lt {α : Type} {k s : String} {cs : List (String × α)} {v : α}
    (hall : keyLtAll k cs = true) (hf : alFind cs s = some v) : strLt k s = true := by
  induction cs with
  | nil => simp [alFind] at hf
  | cons e rest ih =>
    obtain ⟨k2, w⟩ := e
    simp only [keyLtAll, Bool.and_eq_true] at hall
    by_cases hk : k2 = s
    · subst hk
      exact hall.1
    · simp [alFind, hk] at hf
      exact ih hall.2 hf

theorem sortedKeys_sortedInsert {α : Type} {cs : List (String × α)} (s : String) (v : α)
    (hs : sortedKeys cs = true) : sortedKeys (sortedInsert cs s v) = true := by
  induction cs with
  | nil => simp [sortedInsert, sortedKeys, keyLtAll]
  | cons e rest ih =>
    obtain ⟨k, w⟩ := e
    simp only [sortedKeys, Bool.and_eq_true] at hs
    by_cases hlt : strLt s k = true
    · have h1 : keyLtAll s ((k, w) :: rest) = true := by
        simp only [keyLtAll, Bool.and_eq_true]
        exact ⟨hlt, keyLtAll_of_lt hlt hs.1⟩
      simp only [sortedInsert, hlt, if_true, sortedKeys, Bool.and_eq_true]
      exact ⟨h1, hs.1, hs.2⟩
    · by_cases hseq : s = k
      · subst hseq
        simp only [sortedInsert, strLt_irrefl, Bool.false_eq_true, if_false, reduceIte,
          sortedKeys, Bool.and_eq_true]
        exact hs
      · have hks : strLt k s = true := by
          cases hks : strLt k s
          · exact absurd (strLt_eq_of_not (Bool.eq_false_iff.mpr hlt) hks) hseq
          · rfl
        simp only [sortedInsert, hlt, hseq, if_false, reduceIte, sortedKeys, Bool.and_eq_true]
        exact ⟨keyLtAll_sortedInsert v hks hs.1, ih hs.2⟩

theorem sortedKeys_alRemove {α : Type} {cs : List (String × α)} (s : String)
    (hs : sortedKeys cs = true) : sortedKeys (alRemove cs s) = true := by
  induction cs with
  | nil => rfl
  | cons e rest ih =>
    obtain ⟨k, w⟩ := e
    simp only [sortedKeys, Bool.and_eq_true] at hs
    by_cases hk : k = s
    · simp [alRemove, hk, hs.2]
    · simp only [alRemove, hk, if_false, reduceIte, sortedKeys, Bool.and_eq_true]
      exact ⟨keyLtAll_alRemove hs.1, ih hs.2⟩

theorem sortedInsert_self_eq {α : Type} {cs : List (String × α)} {s : String} {v : α}
    (hs : sortedKeys cs = true) (hf : alFind cs s = some v) : sortedInsert cs s v = cs := by
  induction cs with
  | nil => simp [alFind] at hf
  | cons e rest ih =>
    obtain ⟨k, w⟩ := e
    simp only [sortedKeys, Bool.and_eq_true] at hs
    by_cases hk : k = s
    · subst hk
      simp only [alFind, if_true, reduceIte, Option.some.injEq] at hf
      subst hf
      simp [sortedInsert, strLt_irrefl]
    · simp only [alFind, hk, if_false, reduceIte] at hf
      have hks : strLt k s = true := find_some_of_keyLtAll_lt hs.1 hf
      have hlt : strLt s k = false := strLt_asymm hks
      have hne : s ≠ k := fun e => (strLt_ne hks) (Eq.symm e)
      simp [sortedInsert, hlt, hne, ih hs.2 hf]

@[simp] theorem PathNode.body_mk (b : Option String) (cs : List (String × PathNode)) :
    (PathNode.mk b cs).body = b := rfl

@[simp] theorem PathNode.children_mk (b : Option String) (cs : List (String × PathNode)) :
    (PathNode.mk b cs).children = cs := rfl

theorem PathNode.eta : ∀ n : PathNode, PathNode.mk n.body n.children = n
  | .mk _ _ => rfl

theorem bodyAt_nil (n : PathNode) : n.bodyAt [] = n.body := by
  simp [PathNode.bodyAt, PathNode.walkSegs]

theorem bodyAt_cons (n : PathNode) (s : String) (rest : List String) :
    n.bodyAt (s :: rest) =
      (match alFind n.children s with
       | some c => c.bodyAt rest
       | none => none) := by
  simp only [PathNode.bodyAt, PathNode.walkSegs]
  cases alFind n.children s <;> rfl

theorem bodyAt_of_is_empty {n : PathNode} (h : n.is_empty = true) (qs : List String) :
    n.bodyAt qs = none := by
  cases n with
  | mk b cs =>
    simp only [PathNode.is_empty, PathNode.body_mk, PathNode.children_mk, Bool.and_eq_true,
      Option.isNone_iff_eq_none, List.isEmpty_iff] at h
    obtain ⟨hb, hcs⟩ := h
    subst hb
    subst hcs
    cases qs with
    | nil => simp [bodyAt_nil]
    | cons t qrest => simp [bodyAt_cons, alFind]

theorem keyLtAll_mem_lt {α : Type} {k s : String} {c : α} {cs : List (String × α)}
    (hall : keyLtAll k cs = true) (hmem : (s, c) ∈ cs) : strLt k s = true := by
  induction cs with
  | nil => simp at hmem
  | cons e rest ih =>
    obtain ⟨k2, w⟩ := e
    simp only [keyLtAll, Bool.and_eq_true] at hall
    rcases List.mem_cons.mp hmem with h | h
    · cases h
      exact hall.1
    · exact ih hall.2 h

theorem mem_alFind {α : Type} {s : String} {c : α} {cs : List (String × α)}
    (hs : sortedKeys cs = true) (hmem : (s, c) ∈ cs) : alFind cs s = some c := by
  induction cs with
  | nil => simp at hmem
  | cons e rest ih =>
    obtain ⟨k, w⟩ := e
    simp only [sortedKeys, Bool.and_eq_true] at hs
    rcases List.mem_cons.mp hmem with h | h
    · cases h
      simp [alFind]
    · have hks : strLt k s = true := keyLtAll_mem_lt hs.1 h
      have : k ≠ s := strLt_ne hks
      simp [alFind, this, ih hs.2 h]

theorem childrenWf_find {s : String} {c : PathNode} {cs : List (String × PathNode)}
    (h : childrenWf cs = true) (hf : alFind cs s = some c) :
    nodeWf c = true ∧ c.is_empty = false := by
  induction cs with
  | nil => simp [alFind] at hf
  | cons e rest ih =>
    obtain ⟨k, w⟩ := e
    simp only [childrenWf, Bool.and_eq_true] at h
    by_cases hk : k = s
    · subst hk
      simp only [alFind, if_true, reduceIte, Option.some.injEq] at hf
      subst hf
      exact ⟨h.1.2, by simpa using h.1.1⟩
    · simp only [alFind, hk, if_false, reduceIte] at hf
      exact ih h.2 hf

theorem childrenWf_sortedInsert {s : String} {v : PathNode} {cs : List (String × PathNode)}
    (h : childrenWf cs = true) (hv : nodeWf v = true) (hne : v.is_empty = false) :
    childrenWf (sortedInsert cs s v) = true := by
  induction cs with
  | nil => simp [sortedInsert, childrenWf, hv, hne]
  | cons e rest ih =>
    obtain ⟨k, w⟩ := e
    simp only [childrenWf, Bool.and_eq_true] at h
    by_cases hlt : strLt s k = true
    · simp only [sortedInsert, hlt, if_true, reduceIte, childrenWf, Bool.and_eq_true]
      refine ⟨⟨by simp [hne], hv⟩, h.1, h.2⟩
    · by_cases hseq : s = k
      · subst hseq
        simp only [sortedInsert, hlt, if_pos rfl, reduceIte, childrenWf, Bool.and_eq_true]
        exact ⟨⟨by simp [hne], hv⟩, h.2⟩
      · simp only [sortedInsert, hlt, hseq, if_false, reduceIte, childrenWf, Bool.and_eq_true]
        exact ⟨h.1, ih h.2⟩

theorem childrenWf_alRemove {s : String} {cs : List (String × PathNode)}
    (h : childrenWf cs = true) : childrenWf (alRemove cs s) = true := by
  induction cs with
  | nil => rfl
  | cons e rest ih =>
    obtain ⟨k, w⟩ := e
    simp only [childrenWf, Bool.and_eq_true] at h
    by_cases hk : k = s
    · simp [alRemove, hk, h.2]
    · simp only [alRemove, hk, if_false, reduceIte, childrenWf, Bool.and_eq_true]
      exact ⟨h.1, ih h.2⟩

theorem sortedInsert_not_isEmpty {α : Type} (cs : List (String × α)) (s : String) (v : α) :
    (sortedInsert cs s v).isEmpty = false := by
  cases cs with
  | nil => rfl
  | cons e rest =>
    obtain ⟨k, w⟩ := e
    by_cases hlt : strLt s k = true
    · simp [sortedInsert, hlt]
    · by_cases hseq : s = k
      · subst hseq
        simp [sortedInsert, strLt_irrefl]
      · simp [sortedInsert, hlt, hseq]

theorem bodyAt_cons_found {n : PathNode} {s : String} {c : PathNode}
    (h : alFind n.children s = some c) (rest : List String) :
    n.bodyAt (s :: rest) = c.bodyAt rest := by
  rw [bodyAt_cons, h]

theorem bodyAt_cons_notfound {n : PathNode} {s : String}
    (h : alFind n.children s = none) (rest : List String) :
    n.bodyAt (s :: rest) = none := by
  rw [bodyAt_cons, h]

theorem insertAt_bodyAt_self : ∀ (segs : List String) (n : PathNode) (b : String),
    ((n.insertAt segs b).2).bodyAt segs = some b := by
  intro segs
  induction segs with
  | nil =>
    intro n b
    simp [PathNode.insertAt, bodyAt_nil]
  | cons s rest ih =>
    intro n b
    simp only [PathNode.insertAt]
    rw [bodyAt_cons_found (c := ((alFind n.children s).getD (.mk none [])).insertAt rest b |>.2)]
    · exact ih _ b
    · simp only [PathNode.children_mk]
      exact alFind_sortedInsert_self _ _ _

theorem insertAt_fst : ∀ (segs : List String) (n : PathNode) (b : String),
    (n.insertAt segs b).1 = (n.bodyAt segs).isSome := by
  intro segs
  induction segs with
  | nil =>
    intro n b
    simp [PathNode.insertAt, bodyAt_nil]
  | cons s rest ih =>
    intro n b
    simp only [PathNode.insertAt]
    cases hf : alFind n.children s with
    | some c =>
      rw [bodyAt_cons_found hf]
      simpa [hf] using ih c b
    | none =>
      rw [bodyAt_cons_notfound hf]
      have := ih (.mk none []) b
      rw [@bodyAt_of_is_empty (PathNode.mk none []) rfl] at this
      simpa [hf] using this

theorem insertAt_bodyAt_ne : ∀ (segs : List String) {qs : List String} (n : PathNode)
    (b : String), qs ≠ segs → ((n.insertAt segs b).2).bodyAt qs = n.bodyAt qs := by
  intro segs
  induction segs with
  | nil =>
    intro qs n b hne
    cases qs with
    | nil => exact absurd rfl hne
    | cons t qrest =>
      simp only [PathNode.insertAt]
      rw [bodyAt_cons, bodyAt_cons]
      simp only [PathNode.children_mk]
  | cons s rest ih =>
    intro qs n b hne
    cases qs with
    | nil =>
      simp [PathNode.insertAt, bodyAt_nil]
    | cons t qrest =>
      simp only [PathNode.insertAt]
      by_cases hts : t = s
      · subst hts
        have hqr : qrest ≠ rest := fun e => hne (by rw [e])
        rw [bodyAt_cons_found (c := ((alFind n.children t).getD (.mk none [])).insertAt rest b |>.2)
          (by simp only [PathNode.children_mk]; exact alFind_sortedInsert_self _ _ _)]
        rw [ih _ b hqr]
        cases hf : alFind n.children t with
        | some c =>
          rw [bodyAt_cons_found hf]
          simp [hf]
        | none =>
          rw [bodyAt_cons_notfound hf]
          simp only [hf, Option.getD_none]
          exact @bodyAt_of_is_empty (PathNode.mk none []) rfl qrest
      · rw [bodyAt_cons, bodyAt_cons]
        simp only [PathNode.children_mk]
        rw [alFind_sortedInsert_ne _ _ hts]

theorem insertAt_wf : ∀ (segs : List String) (n : PathNode) (b : String),
    nodeWf n = true →
    nodeWf (n.insertAt segs b).2 = true ∧ ((n.insertAt segs b).2).is_empty = false := by
  intro segs
  induction segs with
  | nil =>
    intro n b hwf
    cases n with
    | mk b0 cs =>
      constructor
      · simpa [PathNode.insertAt, nodeWf] using (by simpa [nodeWf] using hwf)
      · simp [PathNode.insertAt, PathNode.is_empty]
  | cons s rest ih =>
    intro n b hwf
    cases n with
    | mk b0 cs =>
      simp only [nodeWf, Bool.and_eq_true] at hwf
      have hchild : nodeWf ((alFind cs s).getD (.mk none [])) = true := by
        cases hf : alFind cs s with
        | some c => simpa using (childrenWf_find hwf.2 hf).1
        | none => simp [nodeWf, sortedKeys, childrenWf]
      have hr := ih ((alFind cs s).getD (.mk none [])) b hchild
      constructor
      · simp only [PathNode.insertAt, nodeWf, PathNode.children_mk, Bool.and_eq_true]
        exact ⟨sortedKeys_sortedInsert s _ hwf.1, childrenWf_sortedInsert hwf.2 hr.1 hr.2⟩
      · simp only [PathNode.insertAt, PathNode.is_empty, PathNode.body_mk, PathNode.children_mk]
        simp [sortedInsert_not_isEmpty]

theorem childrenHaveBody_sortedInsert {s : String} {v : PathNode}
    (cs : List (String × PathNode)) (hv : v.hasBody = true) :
    childrenHaveBody (sortedInsert cs s v) = true := by
  induction cs with
  | nil => simp [sortedInsert, childrenHaveBody, hv]
  | cons e rest ih =>
    obtain ⟨k, w⟩ := e
    by_cases hlt : strLt s k = true
    · simp [sortedInsert, hlt, childrenHaveBody, hv]
    · by_cases hseq : s = k
      · subst hseq
        simp [sortedInsert, strLt_irrefl, childrenHaveBody, hv]
      · simp [sortedInsert, hlt, hseq, childrenHaveBody, ih]

theorem insertAt_hasBody : ∀ (segs : List String) (n : PathNode) (b : String),
    ((n.insertAt segs b).2).hasBody = true := by
  intro segs
  induction segs with
  | nil =>
    intro n b
    simp [PathNode.insertAt, PathNode.hasBody]
  | cons s rest ih =>
    intro n b
    cases n with
    | mk b0 cs =>
      simp only [PathNode.insertAt, PathNode.hasBody, PathNode.children_mk, Bool.or_eq_true]
      exact Or.inr (childrenHaveBody_sortedInsert _ (ih _ b))

theorem alFind_alRemove_self_sorted {α : Type} {cs : List (String × α)} (s : String)
    (hs : sortedKeys cs = true) : alFind (alRemove cs s) s = none := by
  induction cs with
  | nil => rfl
  | cons e rest ih =>
    obtain ⟨k, w⟩ := e
    simp only [sortedKeys, Bool.and_eq_true] at hs
    by_cases hk : k = s
    · subst hk
      simp only [alRemove, if_true, reduceIte]
      exact keyLtAll_find_none hs.1
    · simp [alRemove, alFind, hk, ih hs.2]

theorem deleteRec_fst : ∀ (segs : List String) (n : PathNode),
    (n.delete_recursive segs).1.1 = n.bodyAt segs := by
  intro segs
  induction segs with
  | nil =>
    intro n
    simp [PathNode.delete_recursive, bodyAt_nil]
  | cons s rest ih =>
    intro n
    cases hf : alFind n.children s with
    | some c =>
      simp only [PathNode.delete_recursive, hf]
      rw [bodyAt_cons_found hf]
      exact ih c
    | none =>
      simp only [PathNode.delete_recursive, hf]
      rw [bodyAt_cons_notfound hf]

theorem deleteRec_flag_imp_empty : ∀ (segs : List String) (n : PathNode),
    (n.delete_recursive segs).1.2 = true → ((n.delete_recursive segs).2).is_empty = true := by
  intro segs
  induction segs with
  | nil =>
    intro n h
    simpa [PathNode.delete_recursive] using h
  | cons s rest _ =>
    intro n h
    cases hf : alFind n.children s with
    | some c =>
      simp only [PathNode.delete_recursive, hf] at h ⊢
      exact h
    | none =>
      simp only [PathNode.delete_recursive, hf] at h
      exact absurd h Bool.false_ne_true

theorem deleteRec_flag_nonempty : ∀ (segs : List String) (n : PathNode),
    n.is_empty = false →
    (n.delete_recursive segs).1.2 = ((n.delete_recursive segs).2).is_empty := by
  intro segs
  induction segs with
  | nil =>
    intro n _
    simp [PathNode.delete_recursive]
  | cons s rest _ =>
    intro n hne
    cases hf : alFind n.children s with
    | some c => simp only [PathNode.delete_recursive, hf]
    | none =>
      simp only [PathNode.delete_recursive, hf]
      exact hne.symm

theorem deleteRec_bodyAt_self : ∀ (segs : List String) (n : PathNode), nodeWf n = true →
    ((n.delete_recursive segs).2).bodyAt segs = none := by
  intro segs
  induction segs with
  | nil =>
    intro n _
    simp [PathNode.delete_recursive, bodyAt_nil]
  | cons s rest ih =>
    intro n hwf
    cases n with
    | mk b0 cs =>
      simp only [nodeWf, Bool.and_eq_true] at hwf
      cases hf : alFind cs s with
      | some c =>
        simp only [PathNode.delete_recursive, PathNode.children_mk, hf]
        by_cases hflag : ((c.delete_recursive rest).1.2) = true
        · rw [hflag]
          simp only [if_true, reduceIte]
          refine bodyAt_cons_notfound ?_ rest
          simp only [PathNode.children_mk]
          exact alFind_alRemove_self_sorted s hwf.1
        · rw [Bool.not_eq_true] at hflag
          rw [hflag]
          simp only [if_false, Bool.false_eq_true, reduceIte]
          rw [bodyAt_cons_found (c := (c.delete_recursive rest).2)
            (by simp only [PathNode.children_mk]; exact alFind_sortedInsert_self _ _ _)]
          have hc : nodeWf c = true := (childrenWf_find hwf.2 hf).1
          exact ih _ hc
      | none =>
        simp only [PathNode.delete_recursive, PathNode.children_mk, hf]
        exact bodyAt_cons_notfound (n := PathNode.mk b0 cs) hf rest

theorem deleteRec_bodyAt_ne : ∀ (segs : List String) {qs : List String} (n : PathNode),
    nodeWf n = true → qs ≠ segs →
    ((n.delete_recursive segs).2).bodyAt qs = n.bodyAt qs := by
  intro segs
  induction segs with
  | nil =>
    intro qs n _ hne
    cases qs with
    | nil => exact absurd rfl hne
    | cons t qrest =>
      simp only [PathNode.delete_recursive]
      rw [bodyAt_cons, bodyAt_cons]
      simp only [PathNode.children_mk]
  | cons s rest ih =>
    intro qs n hwf hne
    cases n with
    | mk b0 cs =>
      simp only [nodeWf, Bool.and_eq_true] at hwf
      cases hf : alFind cs s with
      | none => simp [PathNode.delete_recursive, hf]
      | some c =>
        have hcwf : nodeWf c = true ∧ c.is_empty = false := childrenWf_find hwf.2 hf
        simp only [PathNode.delete_recursive, PathNode.children_mk, hf]
        cases qs with
        | nil =>
          rw [bodyAt_nil, bodyAt_nil]
          simp only [PathNode.body_mk]
        | cons t qrest =>
          by_cases hts : t = s
          · subst hts
            have hqr : qrest ≠ rest := fun e => hne (by rw [e])
            by_cases hflag : ((c.delete_recursive rest).1.2) = true
            · rw [hflag]
              simp only [if_true, reduceIte]
              rw [bodyAt_cons_notfound
                (by simp only [PathNode.children_mk]
                    exact alFind_alRemove_self_sorted t hwf.1) qrest]
              rw [bodyAt_cons_found (n := PathNode.mk b0 cs) hf]
              have hemp : ((c.delete_recursive rest).2).is_empty = true :=
                deleteRec_flag_imp_empty rest c hflag
              have h1 : ((c.delete_recursive rest).2).bodyAt qrest = none :=
                bodyAt_of_is_empty hemp qrest
              rw [ih c hcwf.1 hqr] at h1
              rw [h1]
            · rw [Bool.not_eq_true] at hflag
              rw [hflag]
              simp only [if_false, Bool.false_eq_true, reduceIte]
              rw [bodyAt_cons_found (c := (c.delete_recursive rest).2)
                (by simp only [PathNode.children_mk]; exact alFind_sortedInsert_self _ _ _)]
              rw [bodyAt_cons_found (n := PathNode.mk b0 cs) hf]
              exact ih c hcwf.1 hqr
          · rw [bodyAt_cons, bodyAt_cons]
            simp only [PathNode.children_mk]
            by_cases hflag : ((c.delete_recursive rest).1.2) = true
            · rw [hflag]
              simp only [if_true, reduceIte]
              rw [alFind_alRemove_ne _ hts]
            · rw [Bool.not_eq_true] at hflag
              rw [hflag]
              simp only [if_false, Bool.false_eq_true, reduceIte]
              rw [alFind_sortedInsert_ne _ _ hts]

theorem deleteRec_wf : ∀ (segs : List String) (n : PathNode), nodeWf n = true →
    nodeWf ((n.delete_recursive segs).2) = true := by
  intro segs
  induction segs with
  | nil =>
    intro n hwf
    cases n with
    | mk b0 cs => simpa [PathNode.delete_recursive, nodeWf] using hwf
  | cons s rest ih =>
    intro n hwf
    cases n with
    | mk b0 cs =>
      simp only [nodeWf, Bool.and_eq_true] at hwf
      cases hf : alFind cs s with
      | none =>
        simp only [PathNode.delete_recursive, PathNode.children_mk, hf, nodeWf,
          Bool.and_eq_true]
        exact hwf
      | some c =>
        have hcwf : nodeWf c = true ∧ c.is_empty = false := childrenWf_find hwf.2 hf
        simp only [PathNode.delete_recursive, PathNode.children_mk, hf]
        by_cases hflag : ((c.delete_recursive rest).1.2) = true
        · rw [hflag]
          simp only [if_true, reduceIte, nodeWf, PathNode.children_mk, Bool.and_eq_true]
          exact ⟨sortedKeys_alRemove s hwf.1, childrenWf_alRemove hwf.2⟩
        · rw [Bool.not_eq_true] at hflag
          rw [hflag]
          simp only [if_false, Bool.false_eq_true, reduceIte, nodeWf, PathNode.children_mk,
            Bool.and_eq_true]
          have hrec := ih c hcwf.1
          have hrne : ((c.delete_recursive rest).2).is_empty = false := by
            rw [← deleteRec_flag_nonempty rest c hcwf.2]
            exact hflag
          exact ⟨sortedKeys_sortedInsert s _ hwf.1,
            childrenWf_sortedInsert hwf.2 hrec hrne⟩

theorem deleteRec_not_found : ∀ (segs : List String) (n : PathNode), nodeWf n = true →
    n.is_empty = false → n.bodyAt segs = none →
    n.delete_recursive segs = ((none, false), n) := by
  intro segs
  induction segs with
  | nil =>
    intro n hwf hne hb
    cases n with
    | mk b0 cs =>
      rw [bodyAt_nil] at hb
      simp only [PathNode.body_mk] at hb
      subst hb
      simp only [PathNode.delete_recursive, PathNode.body_mk, PathNode.children_mk]
      rw [hne]
  | cons s rest ih =>
    intro n hwf hne hb
    cases n with
    | mk b0 cs =>
      simp only [nodeWf, Bool.and_eq_true] at hwf
      cases hf : alFind cs s with
      | none => simp [PathNode.delete_recursive, hf]
      | some c =>
        have hcwf : nodeWf c = true ∧ c.is_empty = false := childrenWf_find hwf.2 hf
        rw [bodyAt_cons_found (n := PathNode.mk b0 cs) hf] at hb
        have hrec := ih c hcwf.1 hcwf.2 hb
        simp only [PathNode.delete_recursive, PathNode.children_mk, hf, hrec]
        simp only [Bool.false_eq_true, if_false, reduceIte]
        rw [sortedInsert_self_eq hwf.1 hf]
        simp only [PathNode.body_mk]
        rw [hne]

theorem PathNode.inductionOn (P : PathNode → Prop)
    (h : ∀ (b : Option String) (cs : List (String × PathNode)),
      (∀ (s : String) (c : PathNode), (s, c) ∈ cs → P c) → P (.mk b cs))
    (n : PathNode) : P n := by
  have key : ∀ (k : Nat) (t : PathNode), sizeOf t ≤ k → P t := by
    intro k
    induction k with
    | zero =>
      intro t ht
      cases t with
      | mk b cs =>
        rw [PathNode.mk.sizeOf_spec] at ht
        omega
    | succ k ih =>
      intro t ht
      cases t with
      | mk b cs =>
        apply h
        intro s c hmem
        apply ih
        have h1 : sizeOf (s, c) < sizeOf cs := List.sizeOf_lt_of_mem hmem
        have h2 : sizeOf c < sizeOf (s, c) := by
          rw [Prod.mk.sizeOf_spec]
          omega
        rw [PathNode.mk.sizeOf_spec] at ht
        omega
  exact key (sizeOf n) n le_rfl

theorem childrenHaveBody_exists {cs : List (String × PathNode)}
    (h : childrenHaveBody cs = true) :
    ∃ (s : String) (c : PathNode), (s, c) ∈ cs ∧ c.hasBody = true := by
  induction cs with
  | nil => simp [childrenHaveBody] at h
  | cons e rest ih =>
    obtain ⟨k, w⟩ := e
    simp only [childrenHaveBody, Bool.or_eq_true] at h
    rcases h with h | h
    · exact ⟨k, w, List.mem_cons_self _ _, h⟩
    · obtain ⟨s, c, hmem, hb⟩ := ih h
      exact ⟨s, c, List.mem_cons_of_mem _ hmem, hb⟩

theorem childrenWf_mem {s : String} {c : PathNode} {cs : List (String × PathNode)}
    (h : childrenWf cs = true) (hmem : (s, c) ∈ cs) :
    nodeWf c = true ∧ c.is_empty = false := by
  induction cs with
  | nil => simp at hmem
  | cons e rest ih =>
    obtain ⟨k, w⟩ := e
    simp only [childrenWf, Bool.and_eq_true] at h
    rcases List.mem_cons.mp hmem with he | he
    · cases he
      exact ⟨h.1.2, by simpa using h.1.1⟩
    · exact ih h.2 he

theorem wf_nonempty_hasBody (n : PathNode) :
    nodeWf n = true → n.is_empty = false → n.hasBody = true := by
  refine PathNode.inductionOn
    (fun t => nodeWf t = true → t.is_empty = false → t.hasBody = true) ?_ n
  intro b cs ih hwf hne
  cases b with
  | some v => simp [PathNode.hasBody]
  | none =>
    simp only [PathNode.is_empty, PathNode.body_mk, PathNode.children_mk, Option.isNone_none,
      Bool.true_and] at hne
    cases cs with
    | nil => simp at hne
    | cons e rest =>
      obtain ⟨s, c⟩ := e
      simp only [nodeWf, Bool.and_eq_true] at hwf
      have hc := childrenWf_mem hwf.2 (List.mem_cons_self (s, c) rest)
      have hcb : c.hasBody = true := ih s c (List.mem_cons_self _ _) hc.1 hc.2
      simp [PathNode.hasBody, childrenHaveBody, hcb]

theorem hasBody_exists_bodyAt (n : PathNode) :
    nodeWf n = true → n.hasBody = true →
    ∃ (segs : List String) (v : String), n.bodyAt segs = some v := by
  refine PathNode.inductionOn
    (fun t => nodeWf t = true → t.hasBody = true →
      ∃ (segs : List String) (v : String), t.bodyAt segs = some v) ?_ n
  intro b cs ih hwf hb
  cases b with
  | some v =>
    refine ⟨[], v, ?_⟩
    rw [bodyAt_nil]
    simp only [PathNode.body_mk]
  | none =>
    simp only [PathNode.hasBody, Option.isSome_none, Bool.false_or] at hb
    obtain ⟨s, c, hmem, hcb⟩ := childrenHaveBody_exists hb
    simp only [nodeWf, Bool.and_eq_true] at hwf
    have hc := childrenWf_mem hwf.2 hmem
    obtain ⟨qs, v, hqv⟩ := ih s c hmem hc.1 hcb
    refine ⟨s :: qs, v, ?_⟩
    rw [bodyAt_cons_found (n := PathNode.mk none cs) (mem_alFind hwf.1 hmem), hqv]

theorem get_method_found {s : EndpointStore} {m : Method} {root : PathNode}
    (hf : alFind s.entries m = some root) (p : String) :
    s.get m p = root.bodyAt (normPath p) := by
  simp only [EndpointStore.get, hf, PathNode.walk, PathNode.bodyAt]

theorem get_method_none {s : EndpointStore} {m : Method}
    (hf : alFind s.entries m = none) (p : String) : s.get m p = none := by
  simp [EndpointStore.get, hf]

theorem allNe_find_none {l : List (Method × PathNode)} {m : Method}
    (h : l.all (fun e => !(e.1 == m)) = true) : alFind l m = none := by
  induction l with
  | nil => rfl
  | cons e rest ih =>
    obtain ⟨m2, r⟩ := e
    simp only [List.all_cons, Bool.and_eq_true, Bool.not_eq_eq_eq_not, Bool.not_true,
      beq_eq_false_iff_ne, ne_eq] at h
    simp [alFind, h.1, ih (by simpa using h.2)]

theorem allNe_alInsert {l : List (Method × PathNode)} {m m2 : Method} (v : PathNode)
    (h : l.all (fun e => !(e.1 == m2)) = true) (hne : m ≠ m2) :
    (alInsert l m v).all (fun e => !(e.1 == m2)) = true := by
  induction l with
  | nil => simpa [alInsert] using hne
  | cons e rest ih =>
    obtain ⟨m3, r⟩ := e
    simp only [List.all_cons, Bool.and_eq_true] at h
    by_cases hk : m3 = m
    · subst hk
      simp only [alInsert, if_true, reduceIte, List.all_cons, Bool.and_eq_true]
      exact ⟨h.1, h.2⟩
    · simp only [alInsert, hk, if_false, reduceIte, List.all_cons, Bool.and_eq_true]
      exact ⟨h.1, ih h.2⟩

theorem allNe_alRemove {l : List (Method × PathNode)} {m m2 : Method}
    (h : l.all (fun e => !(e.1 == m2)) = true) :
    (alRemove l m).all (fun e => !(e.1 == m2)) = true := by
  induction l with
  | nil => rfl
  | cons e rest ih =>
    obtain ⟨m3, r⟩ := e
    simp only [List.all_cons, Bool.and_eq_true] at h
    by_cases hk : m3 = m
    · simp only [alRemove, hk, if_true, reduceIte]
      exact h.2
    · simp only [alRemove, hk, if_false, reduceIte, List.all_cons, Bool.and_eq_true]
      exact ⟨h.1, ih h.2⟩

theorem storeEntriesWf_find {l : List (Method × PathNode)} {m : Method} {root : PathNode}
    (h : storeEntriesWf l = true) (hf : alFind l m = some root) :
    nodeWf root = true ∧ root.is_empty = false := by
  induction l with
  | nil => simp [alFind] at hf
  | cons e rest ih =>
    obtain ⟨m2, r⟩ := e
    simp only [storeEntriesWf, Bool.and_eq_true] at h
    by_cases hk : m2 = m
    · subst hk
      simp only [alFind, if_true, reduceIte, Option.some.injEq] at hf
      subst hf
      exact ⟨h.1.1.1, by simpa using h.1.1.2⟩
    · simp only [alFind, hk, if_false, reduceIte] at hf
      exact ih h.2 hf

theorem storeEntriesWf_alInsert {l : List (Method × PathNode)} {m : Method} {v : PathNode}
    (h : storeEntriesWf l = true) (hv : nodeWf v = true) (hne : v.is_empty = false) :
    storeEntriesWf (alInsert l m v) = true := by
  induction l with
  | nil => simp [alInsert, storeEntriesWf, hv, hne]
  | cons e rest ih =>
    obtain ⟨m2, r⟩ := e
    simp only [storeEntriesWf, Bool.and_eq_true] at h
    by_cases hk : m2 = m
    · subst hk
      simp only [alInsert, if_true, reduceIte, storeEntriesWf, Bool.and_eq_true]
      exact ⟨⟨⟨hv, by simp [hne]⟩, h.1.2⟩, h.2⟩
    · simp only [alInsert, hk, if_false, reduceIte, storeEntriesWf, Bool.and_eq_true]
      refine ⟨⟨⟨h.1.1.1, h.1.1.2⟩, ?_⟩, ih h.2⟩
      exact allNe_alInsert v h.1.2 (fun e => hk (Eq.symm e))

theorem storeEntriesWf_alRemove {l : List (Method × PathNode)} (m : Method)
    (h : storeEntriesWf l = true) : storeEntriesWf (alRemove l m) = true := by
  induction l with
  | nil => rfl
  | cons e rest ih =>
    obtain ⟨m2, r⟩ := e
    simp only [storeEntriesWf, Bool.and_eq_true] at h
    by_cases hk : m2 = m
    · simp only [alRemove, hk, if_true, reduceIte]
      exact h.2
    · simp only [alRemove, hk, if_false, reduceIte, storeEntriesWf, Bool.and_eq_true]
      exact ⟨⟨⟨h.1.1.1, h.1.1.2⟩, allNe_alRemove h.1.2⟩, ih h.2⟩

theorem alFind_alRemove_self_store {l : List (Method × PathNode)} {m : Method}
    (h : storeEntriesWf l = true) : alFind (alRemove l m) m = none := by
  induction l with
  | nil => rfl
  | cons e rest ih =>
    obtain ⟨m2, r⟩ := e
    simp only [storeEntriesWf, Bool.and_eq_true] at h
    by_cases hk : m2 = m
    · subst hk
      simp only [alRemove, if_true, reduceIte]
      exact allNe_find_none h.1.2
    · simp [alRemove, alFind, hk, ih h.2]

theorem get_add_self (s : EndpointStore) (m : Method) (p q b : String)
    (hq : normPath q = normPath p) : ((s.add m p b).2).get m q = some b := by
  have hf : alFind ((s.add m p b).2).entries m =
      some (((alFind s.entries m).getD (.mk none [])).insertAt (normPath p) b).2 := by
    simp only [EndpointStore.add]
    exact alFind_alInsert_self _ _ _
  rw [get_method_found hf, hq]
  exact insertAt_bodyAt_self _ _ _

theorem get_add_other (s : EndpointStore) (m m2 : Method) (p q b : String)
    (h : m2 ≠ m ∨ normPath q ≠ normPath p) : ((s.add m p b).2).get m2 q = s.get m2 q := by
  by_cases hm : m2 = m
  · subst hm
    have hq : normPath q ≠ normPath p := h.resolve_left (fun e => e rfl)
    have hf : alFind ((s.add m2 p b).2).entries m2 =
        some (((alFind s.entries m2).getD (.mk none [])).insertAt (normPath p) b).2 := by
      simp only [EndpointStore.add]
      exact alFind_alInsert_self _ _ _
    rw [get_method_found hf]
    rw [insertAt_bodyAt_ne _ _ b hq]
    cases hroot : alFind s.entries m2 with
    | some root =>
      rw [get_method_found hroot]
      simp [hroot]
    | none =>
      rw [get_method_none hroot]
      simp only [hroot, Option.getD_none]
      exact @bodyAt_of_is_empty (PathNode.mk none []) rfl (normPath q)
  · have hf : alFind ((s.add m p b).2).entries m2 = alFind s.entries m2 := by
      simp only [EndpointStore.add]
      exact alFind_alInsert_ne _ _ hm
    cases hroot : alFind s.entries m2 with
    | some root =>
      rw [get_method_found (hf.trans hroot), get_method_found hroot]
    | none =>
      rw [get_method_none (hf.trans hroot), get_method_none hroot]

theorem add_fst (s : EndpointStore) (m : Method) (p b : String) :
    (s.add m p b).1 = (s.get m p).isSome := by
  simp only [EndpointStore.add]
  rw [insertAt_fst]
  cases hroot : alFind s.entries m with
  | some root =>
    rw [get_method_found hroot]
    simp [hroot]
  | none =>
    rw [get_method_none hroot]
    simp only [hroot, Option.getD_none]
    rw [@bodyAt_of_is_empty (PathNode.mk none []) rfl (normPath p)]

theorem delete_fst (s : EndpointStore) (m : Method) (p : String) :
    (s.delete m p).1 = s.get m p := by
  cases hroot : alFind s.entries m with
  | some root =>
    simp only [EndpointStore.delete, hroot]
    rw [get_method_found hroot]
    by_cases hflag : ((root.delete_recursive (normPath p)).1.2) = true
    · rw [hflag]
      simp only [if_true, reduceIte]
      exact deleteRec_fst _ _
    · rw [Bool.not_eq_true] at hflag
      rw [hflag]
      simp only [Bool.false_eq_true, if_false, reduceIte]
      exact deleteRec_fst _ _
  | none =>
    simp only [EndpointStore.delete, hroot]
    rw [get_method_none hroot]

theorem get_delete_other (s : EndpointStore) (m m2 : Method) (p q : String)
    (hwf : storeWf s = true) (h : m2 ≠ m ∨ normPath q ≠ normPath p) :
    ((s.delete m p).2).get m2 q = s.get m2 q := by
  cases hroot : alFind s.entries m with
  | none => simp [EndpointStore.delete, hroot]
  | some root =>
    have hrwf : nodeWf root = true ∧ root.is_empty = false := storeEntriesWf_find hwf hroot
    by_cases hm : m2 = m
    · subst hm
      have hq : normPath q ≠ normPath p := h.resolve_left (fun e => e rfl)
      simp only [EndpointStore.delete, hroot]
      by_cases hflag : ((root.delete_recursive (normPath p)).1.2) = true
      · rw [hflag]
        simp only [if_true, reduceIte]
        have hgone : alFind (alRemove s.entries m2) m2 = none :=
          alFind_alRemove_self_store hwf
        rw [get_method_none (s := ⟨alRemove s.entries m2⟩) hgone]
        have hemp := deleteRec_flag_imp_empty (normPath p) root hflag
        have h1 : ((root.delete_recursive (normPath p)).2).bodyAt (normPath q) = none :=
          bodyAt_of_is_empty hemp _
        rw [deleteRec_bodyAt_ne _ root hrwf.1 hq] at h1
        rw [get_method_found hroot, h1]
      · rw [Bool.not_eq_true] at hflag
        rw [hflag]
        simp only [Bool.false_eq_true, if_false, reduceIte]
        have hf2 : alFind (alInsert s.entries m2
            (root.delete_recursive (normPath p)).2) m2 =
            some (root.delete_recursive (normPath p)).2 := alFind_alInsert_self _ _ _
        rw [get_method_found (s := ⟨alInsert s.entries m2
          (root.delete_recursive (normPath p)).2⟩) hf2]
        rw [deleteRec_bodyAt_ne _ root hrwf.1 hq]
        rw [get_method_found hroot]
    · simp only [EndpointStore.delete, hroot]
      by_cases hflag : ((root.delete_recursive (normPath p)).1.2) = true
      · rw [hflag]
        simp only [if_true, reduceIte]
        have hf2 : alFind (alRemove s.entries m) m2 = alFind s.entries m2 :=
          alFind_alRemove_ne _ hm
        cases hr2 : alFind s.entries m2 with
        | some root2 =>
          rw [get_method_found (s := ⟨alRemove s.entries m⟩) (hf2.trans hr2),
            get_method_found hr2]
        | none =>
          rw [get_method_none (s := ⟨alRemove s.entries m⟩) (hf2.trans hr2),
            get_method_none hr2]
      · rw [Bool.not_eq_true] at hflag
        rw [hflag]
        simp only [Bool.false_eq_true, if_false, reduceIte]
        have hf2 : alFind (alInsert s.entries m (root.delete_recursive (normPath p)).2) m2 =
            alFind s.entries m2 := alFind_alInsert_ne _ _ hm
        cases hr2 : alFind s.entries m2 with
        | some root2 =>
          rw [get_method_found (s := ⟨alInsert s.entries m
            (root.delete_recursive (normPath p)).2⟩) (hf2.trans hr2),
            get_method_found hr2]
        | none =>
          rw [get_method_none (s := ⟨alInsert s.entries m
            (root.delete_recursive (normPath p)).2⟩) (hf2.trans hr2),
            get_method_none hr2]

theorem delete_not_found_store (s : EndpointStore) (m : Method) (p : String)
    (hwf : storeWf s = true) (hget : s.get m p = none) : s.delete m p = (none, s) := by
  cases hroot : alFind s.entries m with
  | none => simp [EndpointStore.delete, hroot]
  | some root =>
    have hrwf : nodeWf root = true ∧ root.is_empty = false := storeEntriesWf_find hwf hroot
    rw [get_method_found hroot] at hget
    have hrec := deleteRec_not_found (normPath p) root hrwf.1 hrwf.2 hget
    simp only [EndpointStore.delete, hroot, hrec]
    simp only [Bool.false_eq_true, if_false, reduceIte]
    rw [alInsert_self_eq hroot]

theorem storeWf_add (s : EndpointStore) (m : Method) (p b : String)
    (hwf : storeWf s = true) : storeWf ((s.add m p b).2) = true := by
  have hroot : nodeWf ((alFind s.entries m).getD (.mk none [])) = true := by
    cases hf : alFind s.entries m with
    | some root => simpa using (storeEntriesWf_find hwf hf).1
    | none => simp [nodeWf, sortedKeys, childrenWf]
  have hr := insertAt_wf (normPath p) ((alFind s.entries m).getD (.mk none [])) b hroot
  simp only [EndpointStore.add, storeWf]
  exact storeEntriesWf_alInsert hwf hr.1 hr.2

theorem storeWf_delete (s : EndpointStore) (m : Method) (p : String)
    (hwf : storeWf s = true) : storeWf ((s.delete m p).2) = true := by
  cases hroot : alFind s.entries m with
  | none => simpa [EndpointStore.delete, hroot] using hwf
  | some root =>
    have hrwf : nodeWf root = true ∧ root.is_empty = false := storeEntriesWf_find hwf hroot
    simp only [EndpointStore.delete, hroot]
    by_cases hflag : ((root.delete_recursive (normPath p)).1.2) = true
    · rw [hflag]
      simp only [if_true, reduceIte, storeWf]
      exact storeEntriesWf_alRemove m hwf
    · rw [Bool.not_eq_true] at hflag
      rw [hflag]
      simp only [Bool.false_eq_true, if_false, reduceIte, storeWf]
      have hrne : ((root.delete_recursive (normPath p)).2).is_empty = false := by
        rw [← deleteRec_flag_nonempty _ root hrwf.2]
        exact hflag
      exact storeEntriesWf_alInsert hwf (deleteRec_wf _ root hrwf.1) hrne

theorem alFind_mem {α : Type} {s : String} {c : α} {cs : List (String × α)}
    (hf : alFind cs s = some c) : (s, c) ∈ cs := by
  induction cs with
  | nil => simp [alFind] at hf
  | cons e rest ih =>
    obtain ⟨k, w⟩ := e
    by_cases hk : k = s
    · subst hk
      simp only [alFind, if_true, reduceIte, Option.some.injEq] at hf
      subst hf
      exact List.mem_cons_self _ _
    · simp only [alFind, hk, if_false, reduceIte] at hf
      exact List.mem_cons_of_mem _ (ih hf)

theorem collectPairsChildren_shape {cs : List (String × PathNode)}
    {e : List String × String} (hmem : e ∈ collectPairsChildren cs) :
    ∃ (s : String) (c : PathNode) (qs : List String),
      (s, c) ∈ cs ∧ e.1 = s :: qs ∧ (qs, e.2) ∈ collectPairs c := by
  induction cs with
  | nil => simp [collectPairsChildren] at hmem
  | cons f rest ih =>
    obtain ⟨s, c⟩ := f
    simp only [collectPairsChildren, List.mem_append, List.mem_map] at hmem
    rcases hmem with ⟨a, ha, hae⟩ | h
    · refine ⟨s, c, a.1, List.mem_cons_self _ _, ?_, ?_⟩
      · rw [← hae]
      · rw [← hae]
        simpa using ha
    · obtain ⟨s2, c2, qs, hm2, he1, he2⟩ := ih h
      exact ⟨s2, c2, qs, List.mem_cons_of_mem _ hm2, he1, he2⟩

theorem mem_collectPairsChildren_of {cs : List (String × PathNode)} {s : String}
    {c : PathNode} {qs : List String} {v : String} (hmem : (s, c) ∈ cs)
    (hin : (qs, v) ∈ collectPairs c) : (s :: qs, v) ∈ collectPairsChildren cs := by
  induction cs with
  | nil => simp at hmem
  | cons f rest ih =>
    obtain ⟨k, w⟩ := f
    simp only [collectPairsChildren, List.mem_append, List.mem_map]
    rcases List.mem_cons.mp hmem with he | he
    · obtain ⟨hk, hw⟩ := Prod.mk.injEq .. ▸ he
      left
      refine ⟨(qs, v), ?_, ?_⟩
      · rw [Prod.mk.injEq] at he
        rw [he.2] at hin
        exact hin
      · rw [Prod.mk.injEq] at he
        simp [he.1]
    · right
      exact ih he

theorem mem_collectPairs (n : PathNode) : nodeWf n = true →
    ∀ (segs : List String) (v : String),
      ((segs, v) ∈ collectPairs n ↔ n.bodyAt segs = some v) := by
  refine PathNode.inductionOn
    (fun t => nodeWf t = true → ∀ segs v, ((segs, v) ∈ collectPairs t ↔ t.bodyAt segs = some v))
    ?_ n
  intro b cs ih hwf segs v
  simp only [nodeWf, Bool.and_eq_true] at hwf
  constructor
  · intro hmem
    simp only [collectPairs, List.mem_append] at hmem
    rcases hmem with h | h
    · cases b with
      | some w =>
        simp only [List.mem_singleton, Prod.mk.injEq] at h
        rw [h.1, bodyAt_nil]
        simp [h.2]
      | none => simp at h
    · obtain ⟨s, c, qs, hm, he1, he2⟩ := collectPairsChildren_shape h
      simp only at he1
      subst he1
      have hc := childrenWf_mem hwf.2 hm
      have := (ih s c hm hc.1 qs v).mp he2
      rw [bodyAt_cons_found (n := PathNode.mk b cs) (mem_alFind hwf.1 hm)]
      exact this
  · intro hb
    cases segs with
    | nil =>
      rw [bodyAt_nil] at hb
      simp only [PathNode.body_mk] at hb
      subst hb
      simp [collectPairs]
    | cons s qs =>
      rw [bodyAt_cons] at hb
      simp only [PathNode.children_mk] at hb
      cases hf : alFind cs s with
      | none => simp [hf] at hb
      | some c =>
        rw [hf] at hb
        simp only at hb
        have hm := alFind_mem hf
        have hc := childrenWf_mem hwf.2 hm
        have hin := (ih s c hm hc.1 qs v).mpr hb
        simp only [collectPairs, List.mem_append]
        right
        exact mem_collectPairsChildren_of hm hin

theorem renderAcc_nil (path : String) : renderAcc path [] = path := rfl

theorem renderAcc_cons (path s : String) (qs : List String) :
    renderAcc path (s :: qs) = renderAcc (path ++ "/" ++ s) qs := rfl

theorem collect_entries_eq (n : PathNode) : ∀ (path : String),
    n.collect_entries path =
      (collectPairs n).map (fun e =>
        (if (renderAcc path e.1).isEmpty then "/" else renderAcc path e.1, e.2)) := by
  refine PathNode.inductionOn
    (fun t => ∀ path, t.collect_entries path =
      (collectPairs t).map (fun e =>
        (if (renderAcc path e.1).isEmpty then "/" else renderAcc path e.1, e.2))) ?_ n
  intro b cs ih path
  have hch : ∀ (l : List (String × PathNode)),
      (∀ (s : String) (c : PathNode), (s, c) ∈ l → (s, c) ∈ cs) →
      collectChildren l path =
        (collectPairsChildren l).map (fun e =>
          (if (renderAcc path e.1).isEmpty then "/" else renderAcc path e.1, e.2)) := by
    intro l
    induction l with
    | nil => intro _; rfl
    | cons f rest ihl =>
      intro hsub
      obtain ⟨s, c⟩ := f
      have hmem : (s, c) ∈ cs := hsub s c (List.mem_cons_self _ _)
      simp only [collectChildren, collectPairsChildren, List.map_append, List.map_map]
      rw [ihl (fun s2 c2 hm => hsub s2 c2 (List.mem_cons_of_mem _ hm))]
      rw [ih s c hmem (path ++ "/" ++ s)]
      rfl
  simp only [PathNode.collect_entries, collectPairs, List.map_append]
  rw [hch cs (fun _ _ hm => hm)]
  cases b with
  | some w => rfl
  | none => rfl

theorem append_slash_not_empty (a t : String) : (a ++ "/" ++ t).isEmpty = false := by
  rw [Bool.eq_false_iff]
  intro hc
  rw [String.isEmpty_iff] at hc
  have hlen : (a ++ "/" ++ t).length = 0 := by rw [hc]; rfl
  simp only [String.length_append] at hlen
  have h1 : ("/" : String).length = 1 := rfl
  omega

theorem renderAcc_cons_not_empty (path s : String) (qs : List String) :
    (renderAcc path (s :: qs)).isEmpty = false := by
  have key : ∀ (l : List String) (acc : String), acc.isEmpty = false →
      (renderAcc acc l).isEmpty = false := by
    intro l
    induction l with
    | nil => intro acc h; exact h
    | cons t ts ihl =>
      intro acc _
      rw [renderAcc_cons]
      exact ihl (acc ++ "/" ++ t) (append_slash_not_empty acc t)
  rw [renderAcc_cons]
  exact key qs (path ++ "/" ++ s) (append_slash_not_empty path s)

theorem collectPairs_sorted (n : PathNode) : nodeWf n = true →
    ((collectPairs n).map Prod.fst).Pairwise segLex := by
  refine PathNode.inductionOn
    (fun t => nodeWf t = true → ((collectPairs t).map Prod.fst).Pairwise segLex) ?_ n
  intro b cs ih hwf
  simp only [nodeWf, Bool.and_eq_true] at hwf
  have hch : ∀ (l : List (String × PathNode)),
      (∀ (s : String) (c : PathNode), (s, c) ∈ l → (s, c) ∈ cs) → sortedKeys l = true →
      ((collectPairsChildren l).map Prod.fst).Pairwise segLex := by
    intro l
    induction l with
    | nil =>
      intro _ _
      simp [collectPairsChildren]
    | cons f rest ihl =>
      intro hsub hsk
      obtain ⟨s, c⟩ := f
      simp only [sortedKeys, Bool.and_eq_true] at hsk
      have hmem : (s, c) ∈ cs := hsub s c (List.mem_cons_self _ _)
      have hcwf := childrenWf_mem hwf.2 hmem
      simp only [collectPairsChildren, List.map_append, List.pairwise_append]
      refine ⟨?_, ihl (fun s2 c2 hm => hsub s2 c2 (List.mem_cons_of_mem _ hm)) hsk.2, ?_⟩
      · rw [List.map_map, List.pairwise_map]
        have hp := ih s c hmem hcwf.1
        rw [List.pairwise_map] at hp
        exact hp.imp (fun hab => List.Lex.cons hab)
      · intro a ha b2 hb2
        rw [List.map_map, List.mem_map] at ha
        obtain ⟨ea, _, hea⟩ := ha
        rw [List.mem_map] at hb2
        obtain ⟨eb, hebm, heb⟩ := hb2
        obtain ⟨t, c2, ys, htm, hey, _⟩ := collectPairsChildren_shape hebm
        have hst : strLt s t = true := keyLtAll_mem_lt hsk.1 htm
        rw [← hea, ← heb, hey]
        exact List.Lex.rel hst
  have hpc := hch cs (fun _ _ hm => hm) hwf.1
  cases b with
  | none => simpa [collectPairs] using hpc
  | some w =>
    simp only [collectPairs, List.map_append, List.pairwise_append]
    refine ⟨by simp, hpc, ?_⟩
    intro a ha b2 hb2
    simp only [List.map_cons, List.map_nil, List.mem_singleton] at ha
    rw [List.mem_map] at hb2
    obtain ⟨eb, hebm, heb⟩ := hb2
    obtain ⟨t, c2, ys, _, hey, _⟩ := collectPairsChildren_shape hebm
    rw [ha, ← heb, hey]
    exact List.Lex.nil

theorem storeEntriesWf_mem {l : List (Method × PathNode)} {m : Method} {root : PathNode}
    (h : storeEntriesWf l = true) (hmem : (m, root) ∈ l) :
    nodeWf root = true ∧ root.is_empty = false := by
  induction l with
  | nil => simp at hmem
  | cons e rest ih =>
    obtain ⟨m2, r⟩ := e
    simp only [storeEntriesWf, Bool.and_eq_true] at h
    rcases List.mem_cons.mp hmem with he | he
    · cases he
      exact ⟨h.1.1.1, by simpa using h.1.1.2⟩
    · exact ih h.2 he

theorem delete_only_flag (root : PathNode) (p b : String) (hrwf : nodeWf root = true)
    (hne : root.is_empty = false) (honly : collectPairs root = [(normPath p, b)]) :
    ((root.delete_recursive (normPath p)).1.2) = true := by
  by_cases hflag : ((root.delete_recursive (normPath p)).1.2) = true
  · exact hflag
  · exfalso
    rw [Bool.not_eq_true] at hflag
    have hnemp : ((root.delete_recursive (normPath p)).2).is_empty = false := by
      rw [← deleteRec_flag_nonempty _ root hne]
      exact hflag
    have hwf2 : nodeWf ((root.delete_recursive (normPath p)).2) = true :=
      deleteRec_wf _ root hrwf
    obtain ⟨qs, v, hqv⟩ :=
      hasBody_exists_bodyAt _ hwf2 (wf_nonempty_hasBody _ hwf2 hnemp)
    have hqne : qs ≠ normPath p := by
      intro he
      rw [he, deleteRec_bodyAt_self _ root hrwf] at hqv
      exact Option.noConfusion hqv
    rw [deleteRec_bodyAt_ne _ root hrwf hqne] at hqv
    have hmem := (mem_collectPairs root hrwf qs v).mpr hqv
    rw [honly] at hmem
    simp only [List.mem_singleton, Prod.mk.injEq] at hmem
    exact hqne hmem.1

/-- C1: lookup matches exact normalized paths only.  Adding a body at path p
makes lookup of p return exactly that body, whatever tree was already there
(in particular when the target node has children); lookup of any path q whose
normalized segments differ from those of p (every strict shortening or strict
extension of p, including the zero-segment root path against a one-segment
path) is unchanged by the registration, and on the empty table it is none -
so q resolves to a body only when one was independently registered at q. -/
theorem spec_C1_exact_segment_match (s : EndpointStore) (m : Method) (p q b : String)
    (h : normPath q ≠ normPath p) :
    ((s.add m p b).2.get m p = some b) ∧
    ((s.add m p b).2.get m q = s.get m q) ∧
    ((⟨[]⟩ : EndpointStore).get m q = none) :=
  ⟨get_add_self s m p p b rfl, get_add_other s m m p q b (Or.inr h),
    get_method_none (s := ⟨[]⟩) rfl q⟩

theorem spec_C1_exact_segment_match_witness :
    normPath "/" ≠ normPath "/users" ∧
    ((((⟨[]⟩ : EndpointStore).add .GET "/users" "x").2.get .GET "/users" = some "x") ∧
     (((⟨[]⟩ : EndpointStore).add .GET "/users" "x").2.get .GET "/"
        = (⟨[]⟩ : EndpointStore).get .GET "/") ∧
     ((⟨[]⟩ : EndpointStore).get .GET "/" = none)) :=
  ⟨by decide, spec_C1_exact_segment_match ⟨[]⟩ .GET "/users" "/" "x" (by decide)⟩

/-- C3: path-normalization congruence.  Two path strings with the same
normalized segment list are interchangeable in add, get and delete (the three
operations produce identical results), and a get after one add returns the
stored body no matter which normalized-equal form was used for either call. -/
theorem spec_C3_normalization_congruence (p q : String) (h : normPath p = normPath q)
    (s : EndpointStore) (m m2 : Method) (b : String) :
    (s.add m p b = s.add m q b) ∧
    (s.get m2 p = s.get m2 q) ∧
    (s.delete m2 p = s.delete m2 q) ∧
    (((⟨[]⟩ : EndpointStore).add m p b).2.get m q = some b) := by
  refine ⟨?_, ?_, ?_, get_add_self _ m p q b h.symm⟩
  · simp only [EndpointStore.add, h]
  · simp only [EndpointStore.get, PathNode.walk, h]
  · simp only [EndpointStore.delete, h]

theorem spec_C3_normalization_congruence_witness :
    normPath "users" = normPath "/users/" ∧
    (((⟨[]⟩ : EndpointStore).add .GET "users" "[]" = (⟨[]⟩ : EndpointStore).add .GET "/users/" "[]") ∧
     ((⟨[]⟩ : EndpointStore).get .GET "users" = (⟨[]⟩ : EndpointStore).get .GET "/users/") ∧
     ((⟨[]⟩ : EndpointStore).delete .GET "users" = (⟨[]⟩ : EndpointStore).delete .GET "/users/") ∧
     (((⟨[]⟩ : EndpointStore).add .GET "users" "[]").2.get .GET "/users/" = some "[]")) :=
  ⟨by decide, spec_C3_normalization_congruence "users" "/users/" (by decide) ⟨[]⟩ .GET .GET "[]"⟩

/-- C4: insert semantics.  The add operation is total; it reports an update
exactly when the target node already held a body (equivalently, when get
already succeeded), and it replaces the body unconditionally.  Consequently
two successive adds at the same method and path with bodies b then c report
false then true, and a subsequent get returns c. -/
theorem spec_C4_insert_semantics (s : EndpointStore) (m : Method) (p b c : String) :
    ((s.add m p b).1 = (s.get m p).isSome) ∧
    ((s.add m p b).2.get m p = some b) ∧
    (((⟨[]⟩ : EndpointStore).add m p b).1 = false) ∧
    ((((⟨[]⟩ : EndpointStore).add m p b).2.add m p c).1 = true) ∧
    ((((⟨[]⟩ : EndpointStore).add m p b).2.add m p c).2.get m p = some c) := by
  refine ⟨add_fst s m p b, get_add_self s m p p b rfl, ?_, ?_, get_add_self _ m p p c rfl⟩
  · rw [add_fst, get_method_none (s := ⟨[]⟩) rfl p]
    rfl
  · rw [add_fst, get_add_self _ m p p b rfl]
    rfl

/-- C5: deleting an unregistered path is an atomic no-op surfaced as a distinct
error.  On a well-formed table, when get finds nothing at (m, p), delete
returns none and the table is unchanged, the enumeration output is unchanged,
and the shared-table layer reports EndpointNotFound carrying the requested
path. -/
theorem spec_C5_delete_not_found (s : EndpointStore) (m : Method) (p : String)
    (hwf : storeWf s = true) (hget : s.get m p = none) :
    (s.delete m p = (none, s)) ∧
    (((s.delete m p).2).entriesAll none = s.entriesAll none) ∧
    (delete_endpoint s m p = (Except.error (InternalError.EndpointNotFound p), s)) := by
  have h := delete_not_found_store s m p hwf hget
  refine ⟨h, by rw [h], ?_⟩
  simp [delete_endpoint, h]

theorem spec_C5_delete_not_found_witness :
    storeWf ((⟨[]⟩ : EndpointStore).add .GET "/users" "[]").2 = true ∧
    (((⟨[]⟩ : EndpointStore).add .GET "/users" "[]").2.get .GET "/nothing" = none) ∧
    ((((⟨[]⟩ : EndpointStore).add .GET "/users" "[]").2.delete .GET "/nothing"
        = (none, ((⟨[]⟩ : EndpointStore).add .GET "/users" "[]").2)) ∧
     ((((⟨[]⟩ : EndpointStore).add .GET "/users" "[]").2.delete .GET "/nothing").2.entriesAll none
        = (((⟨[]⟩ : EndpointStore).add .GET "/users" "[]").2).entriesAll none) ∧
     (delete_endpoint ((⟨[]⟩ : EndpointStore).add .GET "/users" "[]").2 .GET "/nothing"
        = (Except.error (InternalError.EndpointNotFound "/nothing"),
           ((⟨[]⟩ : EndpointStore).add .GET "/users" "[]").2))) :=
  ⟨by decide, by decide,
    spec_C5_delete_not_found ((⟨[]⟩ : EndpointStore).add .GET "/users" "[]").2 .GET "/nothing"
      (by decide) (by decide)⟩

/-- C6: frame effect of delete.  Deleting (m, p) leaves the lookup result of
every (m2, q) with a different method or a different normalized path exactly
as it was: sibling entries and entries under other methods stay intact. -/
theorem spec_C6_delete_frame (s : EndpointStore) (m m2 : Method) (p q : String)
    (hwf : storeWf s = true) (h : m2 ≠ m ∨ normPath q ≠ normPath p) :
    ((s.delete m p).2).get m2 q = s.get m2 q :=
  get_delete_other s m m2 p q hwf h

theorem spec_C6_delete_frame_witness :
    storeWf (((⟨[]⟩ : EndpointStore).add .GET "/users/1" "one").2.add .GET "/users/2" "two").2
      = true ∧
    ((((⟨[]⟩ : EndpointStore).add .GET "/users/1" "one").2.add .GET "/users/2" "two").2.delete
        .GET "/users/1").2.get .GET "/users/2"
      = (((⟨[]⟩ : EndpointStore).add .GET "/users/1" "one").2.add .GET "/users/2" "two").2.get
        .GET "/users/2" :=
  ⟨by decide,
    spec_C6_delete_frame
      (((⟨[]⟩ : EndpointStore).add .GET "/users/1" "one").2.add .GET "/users/2" "two").2
      .GET .GET "/users/1" "/users/2" (by decide) (Or.inr (by decide))⟩

/-- C2: pruning invariant.  On a well-formed table, add and delete preserve
well-formedness (children sorted, no node without body and children anywhere,
no method entry with an empty tree), every tree still present after either
operation contains a body, and deleting the only registered entry of a method
removes the method entirely; when it was the only method, is_empty becomes
true and the enumeration is empty. -/
theorem spec_C2_pruning_invariant (s : EndpointStore) (m : Method) (p b : String)
    (hwf : storeWf s = true) :
    (storeWf ((s.add m p b).2) = true) ∧
    (∀ e ∈ ((s.add m p b).2).entries, PathNode.hasBody e.2 = true) ∧
    (storeWf ((s.delete m p).2) = true) ∧
    (∀ e ∈ ((s.delete m p).2).entries, PathNode.hasBody e.2 = true) ∧
    (∀ (root : PathNode) (b2 : String), alFind s.entries m = some root →
      collectPairs root = [(normPath p, b2)] →
      alFind ((s.delete m p).2).entries m = none ∧
      ((s.delete m p).2).entries_by m = []) ∧
    (∀ (root : PathNode) (b2 : String), s.entries = [(m, root)] →
      collectPairs root = [(normPath p, b2)] →
      ((s.delete m p).2).is_empty = true ∧ ((s.delete m p).2).entriesAll none = []) := by
  refine ⟨storeWf_add s m p b hwf, ?_, storeWf_delete s m p hwf, ?_, ?_, ?_⟩
  · intro e hm
    obtain ⟨m2, root2⟩ := e
    have h2 := storeEntriesWf_mem (storeWf_add s m p b hwf) hm
    exact wf_nonempty_hasBody root2 h2.1 h2.2
  · intro e hm
    obtain ⟨m2, root2⟩ := e
    have h2 := storeEntriesWf_mem (storeWf_delete s m p hwf) hm
    exact wf_nonempty_hasBody root2 h2.1 h2.2
  · intro root b2 hroot honly
    have hrwf := storeEntriesWf_find hwf hroot
    have hflag := delete_only_flag root p b2 hrwf.1 hrwf.2 honly
    have hnone : alFind ((s.delete m p).2).entries m = none := by
      simp only [EndpointStore.delete, hroot, hflag, if_true, reduceIte]
      exact alFind_alRemove_self_store hwf
    refine ⟨hnone, ?_⟩
    simp [EndpointStore.entries_by, hnone]
  · intro root b2 hs honly
    have hroot : alFind s.entries m = some root := by
      rw [hs]
      simp [alFind]
    have hrwf := storeEntriesWf_find hwf hroot
    have hflag := delete_only_flag root p b2 hrwf.1 hrwf.2 honly
    simp only [EndpointStore.delete, hroot, hflag, if_true, reduceIte]
    rw [hs]
    constructor
    · simp [alRemove, EndpointStore.is_empty]
    · simp [alRemove, EndpointStore.entriesAll]

theorem spec_C2_pruning_invariant_witness :
    storeWf ((⟨[]⟩ : EndpointStore).add .GET "/users/1" "one").2 = true ∧
    ((storeWf ((((⟨[]⟩ : EndpointStore).add .GET "/users/1" "one").2.add .GET "/users/1" "x").2)
        = true) ∧
     (∀ e ∈ ((((⟨[]⟩ : EndpointStore).add .GET "/users/1" "one").2.add .GET "/users/1" "x").2).entries,
        PathNode.hasBody e.2 = true) ∧
     (storeWf ((((⟨[]⟩ : EndpointStore).add .GET "/users/1" "one").2.delete .GET "/users/1").2)
        = true) ∧
     (∀ e ∈ ((((⟨[]⟩ : EndpointStore).add .GET "/users/1" "one").2.delete .GET "/users/1").2).entries,
        PathNode.hasBody e.2 = true) ∧
     (∀ (root : PathNode) (b2 : String),
        alFind (((⟨[]⟩ : EndpointStore).add .GET "/users/1" "one").2).entries .GET = some root →
        collectPairs root = [(normPath "/users/1", b2)] →
        alFind ((((⟨[]⟩ : EndpointStore).add .GET "/users/1" "one").2.delete .GET "/users/1").2).entries .GET = none ∧
        ((((⟨[]⟩ : EndpointStore).add .GET "/users/1" "one").2.delete .GET "/users/1").2).entries_by .GET = []) ∧
     (∀ (root : PathNode) (b2 : String),
        (((⟨[]⟩ : EndpointStore).add .GET "/users/1" "one").2).entries = [(.GET, root)] →
        collectPairs root = [(normPath "/users/1", b2)] →
        ((((⟨[]⟩ : EndpointStore).add .GET "/users/1" "one").2.delete .GET "/users/1").2).is_empty = true ∧
        ((((⟨[]⟩ : EndpointStore).add .GET "/users/1" "one").2.delete .GET "/users/1").2).entriesAll none = [])) :=
  ⟨by decide,
    spec_C2_pruning_invariant ((⟨[]⟩ : EndpointStore).add .GET "/users/1" "one").2
      .GET "/users/1" "x" (by decide)⟩

/-- C7: enumeration order and path reconstruction.  For a well-formed tree,
collect_entries started on the empty accumulator is exactly the depth-first
list collectPairs rendered through renderFull (segments joined with a slash,
the root body printed as a single slash); collectPairs holds one pair per
stored body (membership coincides with bodyAt); and its segment lists are
strictly increasing in the lexicographic order segLex, so the output is the
sorted depth-first order and in particular deterministic. -/
theorem spec_C7_enumeration_order (n : PathNode) (hwf : nodeWf n = true) :
    (n.collect_entries "" = (collectPairs n).map (fun e => (renderFull e.1, e.2))) ∧
    (∀ (segs : List String) (v : String),
      ((segs, v) ∈ collectPairs n ↔ n.bodyAt segs = some v)) ∧
    (((collectPairs n).map Prod.fst).Pairwise segLex) := by
  refine ⟨?_, mem_collectPairs n hwf, collectPairs_sorted n hwf⟩
  rw [collect_entries_eq n ""]
  have hfun : (fun (e : List String × String) =>
      (if (renderAcc "" e.1).isEmpty then "/" else renderAcc "" e.1, e.2))
      = (fun e => (renderFull e.1, e.2)) := by
    funext e
    cases he : e.1 with
    | nil =>
      have h0 : ("" : String).isEmpty = true := rfl
      simp [renderFull, he, renderAcc_nil, h0]
    | cons t ts =>
      simp [renderFull, he, renderAcc_cons_not_empty]
  rw [hfun]

theorem spec_C7_enumeration_order_witness :
    nodeWf (PathNode.mk (some "r")
      [("a", PathNode.mk (some "1") []), ("b", PathNode.mk (some "2") [])]) = true ∧
    ((PathNode.collect_entries (PathNode.mk (some "r")
        [("a", PathNode.mk (some "1") []), ("b", PathNode.mk (some "2") [])]) ""
      = (collectPairs (PathNode.mk (some "r")
          [("a", PathNode.mk (some "1") []), ("b", PathNode.mk (some "2") [])])).map
          (fun e => (renderFull e.1, e.2))) ∧
     (∀ (segs : List String) (v : String),
       ((segs, v) ∈ collectPairs (PathNode.mk (some "r")
           [("a", PathNode.mk (some "1") []), ("b", PathNode.mk (some "2") [])]) ↔
         (PathNode.mk (some "r")
           [("a", PathNode.mk (some "1") []), ("b", PathNode.mk (some "2") [])]).bodyAt segs
           = some v)) ∧
     (((collectPairs (PathNode.mk (some "r")
         [("a", PathNode.mk (some "1") []), ("b", PathNode.mk (some "2") [])])).map
         Prod.fst).Pairwise segLex)) :=
  ⟨by decide,
    spec_C7_enumeration_order (PathNode.mk (some "r")
      [("a", PathNode.mk (some "1") []), ("b", PathNode.mk (some "2") [])]) (by decide)⟩

/-- C8: dispatcher responses.  For a request that the liveness route does not
handle, a successful read of the table answers 200 with the stored body
byte-for-byte when (method, path) is registered, and otherwise 404 with the
serde_json rendering of the error object carrying the requested path; a
poisoned read lock answers 500 with an empty body. -/
theorem spec_C8_dispatcher_responses (s : EndpointStore) (m : Method) (p : String)
    (h : ¬(m = Method.GET ∧ p = "/api/health")) :
    (∀ b : String, s.get m p = some b → handle_request (.ok s) m p = ⟨200, b⟩) ∧
    (s.get m p = none → handle_request (.ok s) m p = ⟨404, jsonNotFound p⟩) ∧
    (handle_request .poisoned m p = ⟨500, ""⟩) := by
  refine ⟨?_, ?_, ?_⟩
  · intro b hb
    simp [handle_request, h, catch_all, hb]
  · intro hb
    simp [handle_request, h, catch_all, hb]
  · simp [handle_request, h, catch_all]

theorem spec_C8_dispatcher_responses_witness :
    (¬(Method.GET = Method.GET ∧ "/users" = "/api/health")) ∧
    ((∀ b : String, (((⟨[]⟩ : EndpointStore).add .GET "/users" "[]").2).get .GET "/users" = some b →
        handle_request (.ok (((⟨[]⟩ : EndpointStore).add .GET "/users" "[]").2)) .GET "/users"
          = ⟨200, b⟩) ∧
     ((((⟨[]⟩ : EndpointStore).add .GET "/users" "[]").2).get .GET "/users" = none →
        handle_request (.ok (((⟨[]⟩ : EndpointStore).add .GET "/users" "[]").2)) .GET "/users"
          = ⟨404, jsonNotFound "/users"⟩) ∧
     (handle_request .poisoned .GET "/users" = ⟨500, ""⟩)) :=
  ⟨by decide,
    spec_C8_dispatcher_responses ((⟨[]⟩ : EndpointStore).add .GET "/users" "[]").2
      .GET "/users" (by decide)⟩

/-- C9: liveness endpoint reservation.  A GET request for /api/health is
answered 200 with body OK whatever the lock state and table contents, and in
particular also when an endpoint has been registered at (GET, /api/health):
that entry sits in the table (third conjunct) yet is never served over HTTP
at that exact path. -/
theorem spec_C9_health_reserved (lock : LockResult EndpointStore) (s : EndpointStore)
    (b : String) :
    (handle_request lock Method.GET "/api/health" = ⟨200, "OK"⟩) ∧
    (handle_request (.ok ((s.add Method.GET "/api/health" b).2)) Method.GET "/api/health"
      = ⟨200, "OK"⟩) ∧
    (((s.add Method.GET "/api/health" b).2).get Method.GET "/api/health" = some b) := by
  refine ⟨?_, ?_, get_add_self s Method.GET "/api/health" "/api/health" b rfl⟩
  · simp [handle_request]
  · simp [handle_request]

/-- C10: deleting a path whose node exists but holds no body (for example an
intermediate node of a longer registered path) returns none and leaves the
well-formed table structurally unchanged, so every lookup, in particular of
the longer entry, is unaffected. -/
theorem spec_C10_delete_bodyless_node (s : EndpointStore) (m : Method) (p : String)
    (root node : PathNode) (hwf : storeWf s = true)
    (hroot : alFind s.entries m = some root)
    (hwalk : root.walkSegs (normPath p) = some node) (hbody : node.body = none) :
    (s.delete m p = (none, s)) ∧
    (∀ (m2 : Method) (q : String), ((s.delete m p).2).get m2 q = s.get m2 q) := by
  have hget : s.get m p = none := by
    rw [get_method_found hroot]
    simp [PathNode.bodyAt, hwalk, hbody]
  have h := delete_not_found_store s m p hwf hget
  exact ⟨h, fun m2 q => by rw [h]⟩

theorem spec_C10_delete_bodyless_node_witness :
    storeWf ((⟨[]⟩ : EndpointStore).add .GET "/users/123" "x").2 = true ∧
    alFind (((⟨[]⟩ : EndpointStore).add .GET "/users/123" "x").2).entries .GET
      = some (PathNode.mk none [("users", PathNode.mk none [("123", PathNode.mk (some "x") [])])]) ∧
    (PathNode.mk none [("users", PathNode.mk none [("123", PathNode.mk (some "x") [])])]).walkSegs
      (normPath "/users") = some (PathNode.mk none [("123", PathNode.mk (some "x") [])]) ∧
    (PathNode.mk none [("123", PathNode.mk (some "x") [])]).body = none ∧
    ((((⟨[]⟩ : EndpointStore).add .GET "/users/123" "x").2.delete .GET "/users"
        = (none, ((⟨[]⟩ : EndpointStore).add .GET "/users/123" "x").2)) ∧
     (∀ (m2 : Method) (q : String),
        ((((⟨[]⟩ : EndpointStore).add .GET "/users/123" "x").2.delete .GET "/users").2).get m2 q
          = (((⟨[]⟩ : EndpointStore).add .GET "/users/123" "x").2).get m2 q)) :=
  ⟨by decide, rfl, rfl, rfl,
    spec_C10_delete_bodyless_node ((⟨[]⟩ : EndpointStore).add .GET "/users/123" "x").2
      .GET "/users"
      (PathNode.mk none [("users", PathNode.mk none [("123", PathNode.mk (some "x") [])])])
      (PathNode.mk none [("123", PathNode.mk (some "x") [])])
      (by decide) rfl rfl rfl⟩
